import Mathlib

/-!
Verification of the batch PDF ingestion and name-resolution pipeline
(`src/gemini_batch.py`) against its natural-language specification.

Strings are modelled as `List Char` (ASCII range; Python's `str` predicates
`isalpha`, `isdigit`, `isalnum` and the regex class `\s` are modelled by the
corresponding ASCII predicates).  Fallible collaborator calls (Drive metadata
fetch, binary download, Gemini upload, Gemini generate) are modelled as
functions into `Except`; observable side effects (binary download, upload,
`time.sleep`) are recorded in an event trace.
-/

namespace BatchPdf

/-! ## Character predicates (Python `str` methods, ASCII range) -/

/-- Python regex `\s` (ASCII range): space, tab, newline, carriage return,
vertical tab, form feed. -/
def pyIsSpace (c : Char) : Bool :=
  c == ' ' || c == '\t' || c == '\n' || c == '\r' || c == '\x0b' || c == '\x0c'

/-- A character matched by the regex class `[_\s-]` in
`re.split(r'[_\s-]+', ...)`. -/
def isDelim (c : Char) : Bool :=
  c == '_' || pyIsSpace c || c == '-'

/-- Python `str.isalpha` for a whole string: nonempty and all alphabetic. -/
def strIsAlpha (s : List Char) : Bool :=
  !s.isEmpty && s.all Char.isAlpha

/-- Python `str.isalnum` for a whole string: nonempty and all alphanumeric. -/
def strIsAlnum (s : List Char) : Bool :=
  !s.isEmpty && s.all Char.isAlphanum

/-- Python `any(char.isdigit() for char in part)`. -/
def strHasDigit (s : List Char) : Bool :=
  s.any Char.isDigit

/-- The loop's break condition in `extract_student_name`:
`part.isalnum() and not part.isalpha() and any(char.isdigit() for char in part)`. -/
def isIdCode (s : List Char) : Bool :=
  strIsAlnum s && !strIsAlpha s && strHasDigit s

/-- Python `str.strip()`: remove leading and trailing whitespace. -/
def pyStrip (l : List Char) : List Char :=
  ((l.dropWhile pyIsSpace).reverse.dropWhile pyIsSpace).reverse

/-! ## Name Resolver (`extract_student_name`) -/

/-- `text[text.rindex(')') + 1:]`, falling back to the whole string when the
`ValueError` (no `)` present) is caught: everything after the last `)`. -/
def afterLastParen (s : List Char) : List Char :=
  if ')' ∈ s then (s.reverse.takeWhile (fun c => c != ')')).reverse else s

/-- `re.split(r'[_\s-]+', s)`: split at maximal runs of delimiter characters
(runs collapse into a single split point; a leading or trailing run yields one
empty field, exactly as `re.split` does). -/
def splitRuns : List Char → List (List Char)
  | [] => [[]]
  | c :: cs =>
    if isDelim c then
      match cs with
      | [] => [[], []]
      | d :: _ => if isDelim d then splitRuns cs else [] :: splitRuns cs
    else
      match splitRuns cs with
      | [] => [[c]]
      | t :: rest => (c :: t) :: rest

/-- The token walk of `extract_student_name`: append each nonempty part,
stopping (discarding the rest) at the first identifier-code part. -/
def takeNameParts : List (List Char) → List (List Char)
  | [] => []
  | p :: ps =>
    if isIdCode p then []
    else if p.isEmpty then takeNameParts ps
    else p :: takeNameParts ps

/-- Python `" ".join(parts)`. -/
def joinSpace : List (List Char) → List Char
  | [] => []
  | [t] => t
  | t :: ts => t ++ ' ' :: joinSpace ts

/-- `if full_name and not full_name[0].isalpha(): full_name = full_name[1:].strip()`:
drop one leading non-alphabetic character and re-strip. -/
def dropLeadNonAlpha : List Char → List Char
  | [] => []
  | c :: rest => if c.isAlpha then c :: rest else pyStrip rest

/-- The final cleanup of `extract_student_name`: join with single spaces,
strip, drop one leading non-alphabetic character (re-stripping), and return
`None` for an empty result. -/
def finalizeName (nps : List (List Char)) : Option (List Char) :=
  if (dropLeadNonAlpha (pyStrip (joinSpace nps))).isEmpty then none
  else some (dropLeadNonAlpha (pyStrip (joinSpace nps)))

/-- `extract_student_name` from `src/gemini_batch.py`.  The outer
`try/except` of the source can never fire (no inner operation raises once the
`rindex` `ValueError` is handled), so it is not modelled. -/
def extract_student_name (text : List Char) : Option (List Char) :=
  finalizeName (takeNameParts (splitRuns (afterLastParen text)))

example : "ab".toList = ['a', 'b'] := rfl

example :
    extract_student_name "(2023) John Smith_A1b2_extra.pdf".toList
      = some "John Smith".toList := by decide

example : extract_student_name "_".toList = none := by decide

example : extract_student_name "..abc".toList = some ".abc".toList := by decide

example : extract_student_name ".a1 b".toList = some "a1 b".toList := by decide

example : extract_student_name "a1 b".toList = none := by decide

example : extract_student_name "f.pdf".toList = some "f.pdf".toList := by decide

/-! ## Identifier Extractor (`extract_file_id`)

Embeds `re.search(r"(?:file\/d\/|open\?id=|uc\?id=)([a-zA-Z0-9-_]+)", link)`:
unanchored, leftmost match wins, alternation tried in order at each position,
capture is the maximal nonempty run of identifier characters after the
matched marker. -/

/-- The capture class `[a-zA-Z0-9-_]`. -/
def isIdChar (c : Char) : Bool :=
  c.isAlphanum || c == '-' || c == '_'

def fileMarker : List Char := "file/d/".toList
def openMarker : List Char := "open?id=".toList
def ucMarker : List Char := "uc?id=".toList

def markers : List (List Char) := [fileMarker, openMarker, ucMarker]

/-- Literal-prefix test (regex literal matching at the current position). -/
def startsWith : List Char → List Char → Bool
  | [], _ => true
  | _ :: _, [] => false
  | a :: as, b :: bs => a == b && startsWith as bs

/-- Try one alternative at the current position: the literal marker `m`, then
a nonempty maximal run of identifier characters (the capture group). -/
def matchMarkerAt (m s : List Char) : Option (List Char) :=
  if startsWith m s then
    if ((s.drop m.length).takeWhile isIdChar).isEmpty then none
    else some ((s.drop m.length).takeWhile isIdChar)
  else none

/-- Try the three alternatives, in the alternation order of the pattern, at
the current position. -/
def matchAt (s : List Char) : Option (List Char) :=
  match matchMarkerAt fileMarker s with
  | some t => some t
  | none =>
    match matchMarkerAt openMarker s with
    | some t => some t
    | none => matchMarkerAt ucMarker s

/-- `extract_file_id` from `src/gemini_batch.py`: `re.search` scans positions
left to right and returns the first capture; `None` when nothing matches. -/
def extract_file_id : List Char → Option (List Char)
  | [] => none
  | c :: cs =>
    match matchAt (c :: cs) with
    | some t => some t
    | none => extract_file_id cs

/-- A string contains a recognized link shape: some marker occurrence is
followed by at least one identifier character. -/
def containsShape (s : List Char) : Prop :=
  ∃ a m c b, m ∈ markers ∧ isIdChar c = true ∧ s = a ++ m ++ c :: b

example :
    extract_file_id "https://drive.google.com/file/d/1NZ1T9atC/view".toList
      = some "1NZ1T9atC".toList := by decide

example : extract_file_id "https://example.com/open?id=ab-c_9&x=1".toList
      = some "ab-c_9".toList := by decide

example : extract_file_id "uc?id=Q".toList = some "Q".toList := by decide

example : extract_file_id "https://example.com/nothing".toList = none := by
  decide

example : extract_file_id "file/d/".toList = none := by decide

/-! ## Data model and event traces for the ingestion pipeline -/

/-- A remote blob handle held by the Gemini store (`RemoteBlobHandle`):
display name (the cache key) plus a dereferenceable URI. -/
structure GeminiFile where
  display_name : List Char
  uri : List Char
  deriving DecidableEq

/-- A `FileRecord`: the dictionary appended to `uploaded_pdfs`. -/
structure UploadedPdf where
  file_id : List Char
  file_name : List Char
  student_name : List Char
  gemini_file : GeminiFile
  deriving DecidableEq

/-- Exceptions raised by collaborator calls.  `httpError` models
`googleapiclient.errors.HttpError`; `otherError` models any other
exception. -/
inductive PyExc
  | httpError
  | otherError
  deriving DecidableEq

/-- Observable side effects of the pipeline and analyzer. -/
inductive Ev
  | download (id : List Char)
  | upload (name : List Char)
  | sleep (secs : Nat)
  deriving DecidableEq

/-- The `dict` built by `gemini_files_map[f.display_name] = f`: lookup
returns the last inserted entry for a display name (last-seen wins). -/
def lookupLast (fs : List GeminiFile) (name : List Char) : Option GeminiFile :=
  (fs.filter (fun f => f.display_name == name)).getLast?

/-- Outcome of iterating `gemini_client.files.list()`: either the full
catalog, or the items yielded before the iteration raised, together with the
exception. -/
def ListOutcome := Except (List GeminiFile × PyExc) (List GeminiFile)

/-- The `gemini_files_map` left behind by the guarded listing loop.  When the
iteration raises, the exception is caught and logged, and the dict keeps the
entries inserted before the failure. -/
def buildGeminiFilesMap : ListOutcome → (List Char → Option GeminiFile)
  | .ok fs => lookupLast fs
  | .error (yielded, _) => lookupLast yielded

/-- The collaborator calls consumed by the ingestion pipeline. -/
structure DriveEnv where
  /-- `drive_service.files().get(fileId=..., fields="name")` followed by
  `file_metadata.get("name")`: `none` models a missing `name` field. -/
  getName : List Char → Except PyExc (Option (List Char))
  /-- Binary download of one file via `MediaIoBaseDownload`. -/
  download : List Char → Except PyExc Unit
  /-- `gemini_client.files.upload` with the display name; returns the new
  handle. -/
  upload : List Char → List Char → Except PyExc GeminiFile

/-- Outcome of processing one link in the loop body. -/
inductive ItemOut
  | ok (rec : UploadedPdf)
  | skip
  /-- The `except` handler itself raised (`file_name` referenced while
  unbound), aborting the whole function. -/
  | fatal
  deriving DecidableEq

def unknownStudent : List Char := "Unknown Student".toList

/-- `student_name = extract_student_name(file_name)` followed by the falsy
check `if not student_name: student_name = "Unknown Student"`. -/
def resolveStudent (name : List Char) : List Char :=
  match extract_student_name name with
  | none => unknownStudent
  | some s => if s.isEmpty then unknownStudent else s

/-- One iteration of the loop in `process_files_from_list`.  `fvar` models
the Python local `file_name`: `none` while the variable has never been
assigned, `some v` once `file_name = file_metadata.get("name")` ran (where
`v = none` models Python `None`).  Both `except` clauses interpolate
`file_name or link`; when `file_name` is unbound this raises
`UnboundLocalError` inside the handler, which nothing catches (`fatal`). -/
def processLink (env : DriveEnv) (gmap : List Char → Option GeminiFile)
    (fvar : Option (Option (List Char))) (link : List Char) :
    ItemOut × Option (Option (List Char)) × List Ev :=
  match extract_file_id link with
  | none => (.skip, fvar, [])
  | some fid =>
    match env.getName fid with
    | .error _ => if fvar.isSome then (.skip, fvar, []) else (.fatal, fvar, [])
    | .ok nameOpt =>
      match nameOpt with
      | none => (.skip, some nameOpt, [])
      | some name =>
        if name.isEmpty then (.skip, some nameOpt, [])
        else
          match gmap name with
          | some gf => (.ok ⟨fid, name, resolveStudent name, gf⟩, some nameOpt, [])
          | none =>
            match env.download fid with
            | .error _ => (.skip, some nameOpt, [Ev.download fid])
            | .ok _ =>
              match env.upload fid name with
              | .error _ => (.skip, some nameOpt, [Ev.download fid, Ev.upload name])
              | .ok gf =>
                (.ok ⟨fid, name, resolveStudent name, gf⟩, some nameOpt,
                 [Ev.download fid, Ev.upload name, Ev.sleep 1])

/-- The loop of `process_files_from_list`, threading the `file_name` local
across iterations.  `Except.error ()` models an exception escaping the whole
function (the records accumulated so far are lost to the caller). -/
def runIngest (env : DriveEnv) (gmap : List Char → Option GeminiFile) :
    List (List Char) → Option (Option (List Char)) →
    Except Unit (List UploadedPdf) × List Ev
  | [], _ => (.ok [], [])
  | link :: ls, fvar =>
    match processLink env gmap fvar link with
    | (.fatal, _, evs) => (.error (), evs)
    | (.skip, fvar', evs) =>
      ((runIngest env gmap ls fvar').1, evs ++ (runIngest env gmap ls fvar').2)
    | (.ok rec, fvar', evs) =>
      ((runIngest env gmap ls fvar').1.map (fun rs => rec :: rs),
       evs ++ (runIngest env gmap ls fvar').2)

/-- `process_files_from_list` from `src/gemini_batch.py`: builds the catalog
map from the (possibly failed) listing, then processes each link with
`file_name` initially unbound. -/
def process_files_from_list (listing : ListOutcome) (env : DriveEnv)
    (file_list : List (List Char)) : Except Unit (List UploadedPdf) × List Ev :=
  runIngest env (buildGeminiFilesMap listing) file_list none

/-! ## Batch Analyzer (`analyze_pdfs`) -/

/-- Outcome of one `gemini_client.models.generate_content` call:
success carries `result.text` (`none` models Python `None`); `apiError`
covers `exceptions.GoogleAPICallError` and `exceptions.ResourceExhausted`
(rate limit / quota / service-call errors); `otherError` any other
exception. -/
inductive GenOut
  | ok (text : Option (List Char))
  | apiError
  | otherError
  deriving DecidableEq

/-- One entry of `all_responses`. -/
structure AnalysisResult where
  file_name : List Char
  file_id : List Char
  student_name : List Char
  analysis : List Char
  deriving DecidableEq

def noAnalysisText : List Char := "No analysis available.".toList

/-- `analysis_text = result.text.strip() if result.text else "No analysis
available."`: Python `None` and the empty string are falsy. -/
def analysisTextOf (t : Option (List Char)) : List Char :=
  match t with
  | none => noAnalysisText
  | some s => if s.isEmpty then noAnalysisText else pyStrip s

/-- `time.sleep(1)` after each successful analysis call. -/
def successDelaySecs : Nat := 1

/-- `time.sleep(5)` after a rate-limit / API error. -/
def backoffDelaySecs : Nat := 5

/-- `analyze_pdfs` from `src/gemini_batch.py`: per item, call the service
with the prompt and the record's blob URI; on success store the stripped
text (sentinel when `result.text` is falsy) and sleep 1s; on an API error
sleep 5s and skip; on any other error skip without sleeping.  Returns
`all_responses` (writing `responses.json` is external persistence, out of
the model). -/
def analyze_pdfs (gen : List Char → List Char → GenOut) (prompt : List Char) :
    List UploadedPdf → List AnalysisResult × List Ev
  | [] => ([], [])
  | up :: rest =>
    match gen prompt up.gemini_file.uri with
    | .ok t =>
      (⟨up.file_name, up.file_id, up.student_name, analysisTextOf t⟩
         :: (analyze_pdfs gen prompt rest).1,
       Ev.sleep successDelaySecs :: (analyze_pdfs gen prompt rest).2)
    | .apiError =>
      ((analyze_pdfs gen prompt rest).1,
       Ev.sleep backoffDelaySecs :: (analyze_pdfs gen prompt rest).2)
    | .otherError => analyze_pdfs gen prompt rest

/-- A source-store environment whose every call raises `HttpError`. -/
def allFailEnv : DriveEnv :=
  ⟨fun _ => .error .httpError, fun _ => .error .httpError,
   fun _ _ => .error .httpError⟩

example :
    process_files_from_list (.ok []) allFailEnv ["file/d/abc".toList]
      = (.error (), []) := rfl

example :
    process_files_from_list (.ok [⟨"n.pdf".toList, "u".toList⟩])
      ⟨fun fid => if fid = "abc".toList then .ok (some "n.pdf".toList)
                  else .error .httpError,
       fun _ => .error .httpError, fun _ _ => .error .httpError⟩
      ["file/d/abc".toList, "file/d/zzz".toList]
      = (.ok [⟨"abc".toList, "n.pdf".toList, "n.pdf".toList,
              ⟨"n.pdf".toList, "u".toList⟩⟩], []) := rfl

example :
    process_files_from_list (.error ([⟨"f.pdf".toList, "u1".toList⟩], .httpError))
      ⟨fun _ => .ok (some "f.pdf".toList),
       fun _ => .error .otherError, fun _ _ => .error .otherError⟩
      ["file/d/xyz".toList]
      = (.ok [⟨"xyz".toList, "f.pdf".toList, "f.pdf".toList,
              ⟨"f.pdf".toList, "u1".toList⟩⟩], []) := rfl

/-! ## Character-level lemmas -/

theorem space_isDelim {c : Char} (h : pyIsSpace c = true) : isDelim c = true := by
  simp [isDelim, h]

theorem isAlpha_not_delim {c : Char} (h : c.isAlpha = true) :
    isDelim c = false := by
  cases hv : isDelim c
  · rfl
  · exfalso
    have hmem : c = '_' ∨ c = ' ' ∨ c = '\t' ∨ c = '\n' ∨ c = '\r' ∨
        c = '\x0b' ∨ c = '\x0c' ∨ c = '-' := by
      simpa [isDelim, pyIsSpace, or_assoc] using hv
    rcases hmem with rfl | rfl | rfl | rfl | rfl | rfl | rfl | rfl <;>
      simp at h

theorem not_space_of_not_delim {c : Char} (h : isDelim c = false) :
    pyIsSpace c = false := by
  cases hv : pyIsSpace c
  · rfl
  · rw [space_isDelim hv] at h
    cases h

/-! ## `pyStrip` lemmas -/

theorem head?_dropWhile {p : Char → Bool} {l : List Char} {c : Char}
    (h : (l.dropWhile p).head? = some c) : p c = false := by
  induction l with
  | nil => simp [List.dropWhile] at h
  | cons a t ih =>
    by_cases hp : p a = true
    · rw [List.dropWhile_cons_of_pos hp] at h
      exact ih h
    · rw [List.dropWhile_cons_of_neg hp] at h
      simp only [List.head?_cons, Option.some.injEq] at h
      subst h
      cases hv : p a
      · rfl
      · exact absurd hv hp

theorem dropWhile_eq_self_of_head {p : Char → Bool} {l : List Char}
    (h : ∀ c, l.head? = some c → p c = false) : l.dropWhile p = l := by
  cases l with
  | nil => rfl
  | cons a t =>
    have := h a rfl
    rw [List.dropWhile_cons_of_neg (by simp [this])]

theorem mem_pyStrip {l : List Char} {c : Char} (h : c ∈ pyStrip l) : c ∈ l := by
  unfold pyStrip at h
  rw [List.mem_reverse] at h
  have h2 : c ∈ (l.dropWhile pyIsSpace).reverse :=
    (List.dropWhile_sublist _).mem h
  rw [List.mem_reverse] at h2
  exact (List.dropWhile_sublist _).mem h2

theorem head?_pyStrip {l : List Char} {c : Char}
    (h : (pyStrip l).head? = some c) : pyIsSpace c = false := by
  unfold pyStrip at h
  rw [List.head?_reverse] at h
  have hne : (l.dropWhile pyIsSpace).reverse.dropWhile pyIsSpace ≠ [] := by
    intro he
    rw [he] at h
    cases h
  have hsplit :
      ((l.dropWhile pyIsSpace).reverse.takeWhile pyIsSpace ++
        (l.dropWhile pyIsSpace).reverse.dropWhile pyIsSpace).getLast?
      = ((l.dropWhile pyIsSpace).reverse.dropWhile pyIsSpace).getLast? :=
    List.getLast?_append_of_ne_nil _ hne
  rw [List.takeWhile_append_dropWhile] at hsplit
  rw [← hsplit] at h
  rw [List.getLast?_reverse] at h
  exact head?_dropWhile h

theorem getLast?_pyStrip {l : List Char} {c : Char}
    (h : (pyStrip l).getLast? = some c) : pyIsSpace c = false := by
  unfold pyStrip at h
  rw [List.getLast?_reverse] at h
  exact head?_dropWhile h

theorem pyStrip_eq_self {l : List Char}
    (hh : ∀ c, l.head? = some c → pyIsSpace c = false)
    (hl : ∀ c, l.getLast? = some c → pyIsSpace c = false) :
    pyStrip l = l := by
  unfold pyStrip
  rw [dropWhile_eq_self_of_head hh]
  rw [dropWhile_eq_self_of_head (by
    intro c hc
    rw [List.head?_reverse] at hc
    exact hl c hc)]
  exact List.reverse_reverse l

/-! ## No-adjacent-delimiters invariant -/

/-- No two adjacent characters are both delimiter characters; with the
remaining output invariants this says the space separators are single. -/
def noAdjDelim (l : List Char) : Prop :=
  List.Chain' (fun a b => isDelim a = false ∨ isDelim b = false) l

/-- Executable check for `noAdjDelim`. -/
def noAdjDelimB : List Char → Bool
  | [] => true
  | [_] => true
  | a :: b :: r => (!(isDelim a) || !(isDelim b)) && noAdjDelimB (b :: r)

theorem noAdjDelim_iff_b (l : List Char) :
    noAdjDelim l ↔ noAdjDelimB l = true := by
  induction l with
  | nil => simp [noAdjDelim, noAdjDelimB]
  | cons a t ih =>
    cases t with
    | nil => simp [noAdjDelim, noAdjDelimB]
    | cons b r =>
      rw [noAdjDelim, List.chain'_cons, noAdjDelimB]
      rw [noAdjDelim] at ih
      rw [Bool.and_eq_true, ← ih]
      constructor
      · rintro ⟨h1, h2⟩
        refine ⟨?_, h2⟩
        rcases h1 with h1 | h1 <;> simp [h1]
      · rintro ⟨h1, h2⟩
        refine ⟨?_, h2⟩
        rcases Bool.or_eq_true _ _ |>.mp h1 with h1 | h1
        · exact Or.inl (by simpa using h1)
        · exact Or.inr (by simpa using h1)

instance (l : List Char) : Decidable (noAdjDelim l) :=
  decidable_of_iff (noAdjDelimB l = true) (noAdjDelim_iff_b l).symm

theorem noAdjDelim_of_all {l : List Char}
    (h : ∀ c ∈ l, isDelim c = false) : noAdjDelim l := by
  induction l with
  | nil => exact List.chain'_nil
  | cons a t ih =>
    cases t with
    | nil => exact List.chain'_singleton a
    | cons b t2 =>
      rw [noAdjDelim, List.chain'_cons]
      refine ⟨Or.inl (h a (by simp)), ?_⟩
      exact ih (fun c hc => h c (List.mem_cons_of_mem a hc))

theorem noAdjDelim_tail {l : List Char} (h : noAdjDelim l) :
    noAdjDelim l.tail := List.Chain'.tail h

theorem noAdjDelim_reverse {l : List Char} (h : noAdjDelim l) :
    noAdjDelim l.reverse := by
  rw [noAdjDelim, List.chain'_reverse]
  exact List.Chain'.imp (fun a b hab => hab.symm) h

theorem noAdjDelim_of_append_right {l₁ l₂ : List Char}
    (h : noAdjDelim (l₁ ++ l₂)) : noAdjDelim l₂ :=
  (List.chain'_append.mp h).2.1

theorem noAdjDelim_dropWhile {p : Char → Bool} {l : List Char}
    (h : noAdjDelim l) : noAdjDelim (l.dropWhile p) := by
  have := List.takeWhile_append_dropWhile (p := p) (l := l)
  rw [← this] at h
  exact noAdjDelim_of_append_right h

theorem noAdjDelim_pyStrip {l : List Char} (h : noAdjDelim l) :
    noAdjDelim (pyStrip l) := by
  unfold pyStrip
  exact noAdjDelim_reverse (noAdjDelim_dropWhile
    (noAdjDelim_reverse (noAdjDelim_dropWhile h)))

/-! ## `splitRuns` lemmas -/

/-- The first character, when present, is not a delimiter. -/
def noLeadDelim (s : List Char) : Bool :=
  s.head?.all fun c => !isDelim c

/-- The last character, when present, is not a delimiter. -/
def noTrailDelim (s : List Char) : Bool :=
  s.getLast?.all fun c => !isDelim c

theorem noTrailDelim_of_cons {c : Char} {cs : List Char}
    (h : noTrailDelim (c :: cs) = true) : noTrailDelim cs = true := by
  cases cs with
  | nil => rfl
  | cons d cs' =>
    rw [noTrailDelim, ← List.getLast?_cons_cons (a := c)]
    exact h

theorem noTrailDelim_head {c : Char} (h : noTrailDelim [c] = true) :
    isDelim c = false := by
  simp [noTrailDelim] at h
  exact h

theorem splitRuns_delim_delim {c d : Char} {cs : List Char}
    (hc : isDelim c = true) (hd : isDelim d = true) :
    splitRuns (c :: d :: cs) = splitRuns (d :: cs) := by
  conv_lhs => rw [splitRuns]
  rw [if_pos hc]
  simp only [hd, if_true]

theorem splitRuns_delim_nondelim {c d : Char} {cs : List Char}
    (hc : isDelim c = true) (hd : isDelim d = false) :
    splitRuns (c :: d :: cs) = [] :: splitRuns (d :: cs) := by
  conv_lhs => rw [splitRuns]
  rw [if_pos hc]
  simp [hd]

theorem splitRuns_nondelim {c : Char} {cs : List Char} {t : List Char}
    {rest : List (List Char)} (hc : isDelim c = false)
    (h : splitRuns cs = t :: rest) :
    splitRuns (c :: cs) = (c :: t) :: rest := by
  rw [splitRuns.eq_def]
  simp [hc, h]

theorem splitRuns_ne_nil (s : List Char) : splitRuns s ≠ [] := by
  induction s with
  | nil => simp [splitRuns]
  | cons c cs ih =>
    by_cases hc : isDelim c = true
    · cases cs with
      | nil =>
        rw [splitRuns]
        simp [hc]
      | cons d cs' =>
        by_cases hd : isDelim d = true
        · rw [splitRuns_delim_delim hc hd]
          exact ih
        · rw [splitRuns_delim_nondelim hc (by simpa using hd)]
          simp
    · have hc' : isDelim c = false := by simpa using hc
      obtain ⟨t, rest, ht⟩ : ∃ t rest, splitRuns cs = t :: rest := by
        cases hv : splitRuns cs with
        | nil => exact absurd hv ih
        | cons t rest => exact ⟨t, rest, rfl⟩
      rw [splitRuns_nondelim hc' ht]
      simp

theorem splitRuns_chars {s : List Char} :
    ∀ t ∈ splitRuns s, ∀ c ∈ t, c ∈ s ∧ isDelim c = false := by
  induction s with
  | nil =>
    intro t ht c hc
    simp [splitRuns] at ht
    subst ht
    cases hc
  | cons a cs ih =>
    by_cases ha : isDelim a = true
    · cases cs with
      | nil =>
        intro t ht c hc
        rw [splitRuns] at ht
        simp [ha] at ht
        rcases ht with rfl | rfl
        all_goals cases hc
      | cons d cs' =>
        by_cases hd : isDelim d = true
        · rw [splitRuns_delim_delim ha hd]
          intro t ht c hc
          obtain ⟨hmem, hnd⟩ := ih t ht c hc
          exact ⟨List.mem_cons_of_mem a hmem, hnd⟩
        · rw [splitRuns_delim_nondelim ha (by simpa using hd)]
          intro t ht c hc
          rcases List.mem_cons.mp ht with rfl | ht'
          · cases hc
          · obtain ⟨hmem, hnd⟩ := ih t ht' c hc
            exact ⟨List.mem_cons_of_mem a hmem, hnd⟩
    · have ha' : isDelim a = false := by simpa using ha
      obtain ⟨t0, rest, ht0⟩ : ∃ t0 rest, splitRuns cs = t0 :: rest := by
        cases hv : splitRuns cs with
        | nil => exact absurd hv (splitRuns_ne_nil cs)
        | cons t0 rest => exact ⟨t0, rest, rfl⟩
      rw [splitRuns_nondelim ha' ht0]
      intro t ht c hc
      rcases List.mem_cons.mp ht with rfl | ht'
      · rcases List.mem_cons.mp hc with rfl | hc'
        · exact ⟨List.mem_cons_self _ _, ha'⟩
        · obtain ⟨hmem, hnd⟩ := ih t0 (ht0 ▸ List.mem_cons_self t0 rest) c hc'
          exact ⟨List.mem_cons_of_mem a hmem, hnd⟩
      · obtain ⟨hmem, hnd⟩ := ih t (ht0 ▸ List.mem_cons_of_mem t0 ht') c hc
        exact ⟨List.mem_cons_of_mem a hmem, hnd⟩

theorem splitRuns_tokens {s : List Char} (hadj : noAdjDelim s)
    (hlast : noTrailDelim s = true) :
    (∀ t ∈ (splitRuns s).tail, t ≠ []) ∧
    (noLeadDelim s = true → s ≠ [] → ∀ t ∈ splitRuns s, t ≠ []) := by
  induction s with
  | nil =>
    constructor
    · intro t ht
      simp [splitRuns] at ht
    · intro _ hne
      exact absurd rfl hne
  | cons a cs ih =>
    by_cases ha : isDelim a = true
    · have hlead : ¬(noLeadDelim (a :: cs) = true) := by
        simp [noLeadDelim, ha]
      refine ⟨?_, fun hl => absurd hl hlead⟩
      cases cs with
      | nil =>
        have := noTrailDelim_head hlast
        rw [this] at ha
        cases ha
      | cons d cs' =>
        by_cases hd : isDelim d = true
        · rw [noAdjDelim, List.chain'_cons] at hadj
          rcases hadj.1 with h1 | h1
          · rw [ha] at h1; cases h1
          · rw [hd] at h1; cases h1
        · have hd' : isDelim d = false := by simpa using hd
          rw [splitRuns_delim_nondelim ha hd']
          simp only [List.tail_cons]
          have ihr := ih (noAdjDelim_tail hadj) (noTrailDelim_of_cons hlast)
          exact ihr.2 (by simp [noLeadDelim, hd']) (by simp)
    · have ha' : isDelim a = false := by simpa using ha
      obtain ⟨t0, rest, ht0⟩ : ∃ t0 rest, splitRuns cs = t0 :: rest := by
        cases hv : splitRuns cs with
        | nil => exact absurd hv (splitRuns_ne_nil cs)
        | cons t0 rest => exact ⟨t0, rest, rfl⟩
      rw [splitRuns_nondelim ha' ht0]
      have ihr := ih (noAdjDelim_tail hadj) (noTrailDelim_of_cons hlast)
      have hrest : ∀ t ∈ rest, t ≠ [] := by
        intro t ht
        exact ihr.1 t (by rw [ht0]; simpa using ht)
      constructor
      · simpa using hrest
      · intro _ _ t ht
        rcases List.mem_cons.mp ht with rfl | ht'
        · simp
        · exact hrest t ht'

theorem joinSpace_cons_head {c : Char} {t : List Char}
    {rest : List (List Char)} :
    joinSpace ((c :: t) :: rest) = c :: joinSpace (t :: rest) := by
  cases rest with
  | nil => rfl
  | cons r rs => rfl

theorem joinSpace_singleton (t : List Char) : joinSpace [t] = t := rfl

theorem joinSpace_cons_cons (t t' : List Char) (ts : List (List Char)) :
    joinSpace (t :: t' :: ts) = t ++ ' ' :: joinSpace (t' :: ts) := rfl

theorem joinSpace_splitRuns {s : List Char}
    (hsp : ∀ c ∈ s, isDelim c = true → c = ' ')
    (hadj : noAdjDelim s) (hlast : noTrailDelim s = true) :
    joinSpace (splitRuns s) = s := by
  induction s with
  | nil => rfl
  | cons a cs ih =>
    by_cases ha : isDelim a = true
    · have hsp_a : a = ' ' := hsp a (by simp) ha
      cases cs with
      | nil =>
        have := noTrailDelim_head hlast
        rw [this] at ha
        cases ha
      | cons d cs' =>
        by_cases hd : isDelim d = true
        · rw [noAdjDelim, List.chain'_cons] at hadj
          rcases hadj.1 with h1 | h1
          · rw [ha] at h1; cases h1
          · rw [hd] at h1; cases h1
        · have hd' : isDelim d = false := by simpa using hd
          rw [splitRuns_delim_nondelim ha hd']
          obtain ⟨t0, rest, ht0⟩ : ∃ t0 rest, splitRuns (d :: cs') = t0 :: rest := by
            cases hv : splitRuns (d :: cs') with
            | nil => exact absurd hv (splitRuns_ne_nil _)
            | cons t0 rest => exact ⟨t0, rest, rfl⟩
          rw [ht0]
          have hIH : joinSpace (splitRuns (d :: cs')) = d :: cs' :=
            ih (fun c hc hdc => hsp c (List.mem_cons_of_mem a hc) hdc)
              (noAdjDelim_tail hadj) (noTrailDelim_of_cons hlast)
          rw [ht0] at hIH
          show [] ++ ' ' :: joinSpace (t0 :: rest) = a :: d :: cs'
          rw [List.nil_append, hIH, hsp_a]
    · have ha' : isDelim a = false := by simpa using ha
      obtain ⟨t0, rest, ht0⟩ : ∃ t0 rest, splitRuns cs = t0 :: rest := by
        cases hv : splitRuns cs with
        | nil => exact absurd hv (splitRuns_ne_nil cs)
        | cons t0 rest => exact ⟨t0, rest, rfl⟩
      rw [splitRuns_nondelim ha' ht0, joinSpace_cons_head, ← ht0]
      rw [ih (fun c hc hdc => hsp c (List.mem_cons_of_mem a hc) hdc)
        (noAdjDelim_tail hadj) (noTrailDelim_of_cons hlast)]

/-! ## `takeNameParts` lemmas -/

theorem mem_takeNameParts {ps : List (List Char)} {q : List Char}
    (h : q ∈ takeNameParts ps) : q ∈ ps ∧ q ≠ [] := by
  induction ps with
  | nil => cases h
  | cons p ps' ih =>
    rw [takeNameParts] at h
    by_cases hid : isIdCode p = true
    · rw [if_pos hid] at h
      cases h
    · rw [if_neg hid] at h
      by_cases hemp : p.isEmpty = true
      · rw [if_pos hemp] at h
        obtain ⟨hm, hne⟩ := ih h
        exact ⟨List.mem_cons_of_mem p hm, hne⟩
      · rw [if_neg hemp] at h
        rcases List.mem_cons.mp h with rfl | h'
        · refine ⟨List.mem_cons_self _ _, ?_⟩
          intro he
          rw [he] at hemp
          exact hemp rfl
        · obtain ⟨hm, hne⟩ := ih h'
          exact ⟨List.mem_cons_of_mem p hm, hne⟩

theorem takeNameParts_eq_self {ps : List (List Char)}
    (h1 : ∀ p ∈ ps, p ≠ []) (h2 : ∀ p ∈ ps, isIdCode p = false) :
    takeNameParts ps = ps := by
  induction ps with
  | nil => rfl
  | cons p ps' ih =>
    rw [takeNameParts, if_neg (by rw [h2 p (by simp)]; simp),
      if_neg (by
        have := h1 p (by simp)
        intro he
        exact this (List.isEmpty_iff.mp he))]
    rw [ih (fun q hq => h1 q (List.mem_cons_of_mem p hq))
      (fun q hq => h2 q (List.mem_cons_of_mem p hq))]

theorem takeNameParts_eq_filter {ps : List (List Char)}
    (h : ∀ p ∈ ps, isIdCode p = false) :
    takeNameParts ps = ps.filter (fun p => !p.isEmpty) := by
  induction ps with
  | nil => rfl
  | cons p ps' ih =>
    rw [takeNameParts, if_neg (by rw [h p (by simp)]; simp)]
    rw [List.filter_cons]
    by_cases hemp : p.isEmpty = true
    · rw [if_pos hemp, if_neg (by simp [hemp])]
      exact ih (fun q hq => h q (List.mem_cons_of_mem p hq))
    · rw [if_neg hemp, if_pos (by simp at hemp; simp [hemp])]
      rw [ih (fun q hq => h q (List.mem_cons_of_mem p hq))]

/-! ## `joinSpace` lemmas -/

theorem mem_of_getLast? {l : List Char} {c : Char} (h : l.getLast? = some c) :
    c ∈ l := by
  induction l with
  | nil => cases h
  | cons a t ih =>
    cases t with
    | nil =>
      simp at h
      simp [h]
    | cons b t2 =>
      rw [List.getLast?_cons_cons] at h
      exact List.mem_cons_of_mem a (ih h)

theorem joinSpace_mem {nps : List (List Char)} {c : Char}
    (h : c ∈ joinSpace nps) : c = ' ' ∨ ∃ t ∈ nps, c ∈ t := by
  induction nps with
  | nil => cases h
  | cons t ts ih =>
    cases ts with
    | nil =>
      right
      exact ⟨t, by simp, h⟩
    | cons t' ts' =>
      rw [joinSpace_cons_cons] at h
      rcases List.mem_append.mp h with h1 | h1
      · right
        exact ⟨t, by simp, h1⟩
      · rcases List.mem_cons.mp h1 with rfl | h2
        · exact Or.inl rfl
        · rcases ih h2 with hsp | ⟨u, hu, hc⟩
          · exact Or.inl hsp
          · exact Or.inr ⟨u, List.mem_cons_of_mem t hu, hc⟩

theorem joinSpace_ne_nil {nps : List (List Char)} (h0 : nps ≠ [])
    (h1 : ∀ t ∈ nps, t ≠ []) : joinSpace nps ≠ [] := by
  cases nps with
  | nil => exact absurd rfl h0
  | cons t ts =>
    cases ts with
    | nil => exact h1 t (by simp)
    | cons t' ts' =>
      rw [joinSpace_cons_cons]
      intro he
      rcases List.append_eq_nil.mp he with ⟨_, h3⟩
      cases h3

theorem joinSpace_head {nps : List (List Char)}
    (h1 : ∀ t ∈ nps, t ≠ [])
    (h2 : ∀ t ∈ nps, ∀ c ∈ t, isDelim c = false) :
    ∀ c, (joinSpace nps).head? = some c → isDelim c = false := by
  intro c hc
  cases nps with
  | nil => cases hc
  | cons t ts =>
    have hth : ∃ a t2, t = a :: t2 := by
      cases t with
      | nil => exact absurd rfl (h1 [] (by simp))
      | cons a t2 => exact ⟨a, t2, rfl⟩
    obtain ⟨a, t2, rfl⟩ := hth
    cases ts with
    | nil =>
      rw [joinSpace_singleton, List.head?_cons, Option.some.injEq] at hc
      rw [← hc]
      exact h2 (a :: t2) (by simp) a (by simp)
    | cons t' ts' =>
      rw [joinSpace_cons_cons, List.cons_append, List.head?_cons,
        Option.some.injEq] at hc
      rw [← hc]
      exact h2 (a :: t2) (by simp) a (by simp)

theorem joinSpace_last {nps : List (List Char)}
    (h1 : ∀ t ∈ nps, t ≠ [])
    (h2 : ∀ t ∈ nps, ∀ c ∈ t, isDelim c = false) :
    ∀ c, (joinSpace nps).getLast? = some c → isDelim c = false := by
  induction nps with
  | nil => intro c hc; cases hc
  | cons t ts ih =>
    intro c hc
    cases ts with
    | nil =>
      exact h2 t (by simp) c (mem_of_getLast? hc)
    | cons t' ts' =>
      rw [joinSpace_cons_cons] at hc
      have hJ : joinSpace (t' :: ts') ≠ [] :=
        joinSpace_ne_nil (by simp)
          (fun u hu => h1 u (List.mem_cons_of_mem t hu))
      rw [List.getLast?_append_of_ne_nil _ (by simp)] at hc
      have : (' ' :: joinSpace (t' :: ts')).getLast?
          = (joinSpace (t' :: ts')).getLast? := by
        have h5 : ' ' :: joinSpace (t' :: ts')
            = [' '] ++ joinSpace (t' :: ts') := rfl
        rw [h5, List.getLast?_append_of_ne_nil _ hJ]
      rw [this] at hc
      exact ih (fun u hu => h1 u (List.mem_cons_of_mem t hu))
        (fun u hu => h2 u (List.mem_cons_of_mem t hu)) c hc

theorem joinSpace_noAdj {nps : List (List Char)}
    (h1 : ∀ t ∈ nps, t ≠ [])
    (h2 : ∀ t ∈ nps, ∀ c ∈ t, isDelim c = false) :
    noAdjDelim (joinSpace nps) := by
  induction nps with
  | nil => exact List.chain'_nil
  | cons t ts ih =>
    cases ts with
    | nil =>
      exact noAdjDelim_of_all (h2 t (by simp))
    | cons t' ts' =>
      rw [joinSpace_cons_cons]
      have hrest1 : ∀ u ∈ t' :: ts', u ≠ [] :=
        fun u hu => h1 u (List.mem_cons_of_mem t hu)
      have hrest2 : ∀ u ∈ t' :: ts', ∀ c ∈ u, isDelim c = false :=
        fun u hu => h2 u (List.mem_cons_of_mem t hu)
      rw [noAdjDelim, List.chain'_append]
      refine ⟨noAdjDelim_of_all (h2 t (by simp)), ?_, ?_⟩
      · rw [List.chain'_cons']
        constructor
        · intro yy hy
          exact Or.inr (joinSpace_head hrest1 hrest2 yy hy)
        · exact ih hrest1 hrest2
      · intro xx hx yy _
        exact Or.inl (h2 t (by simp) xx (mem_of_getLast? hx))

/-! ## `afterLastParen` lemmas -/

theorem afterLastParen_no_paren (s : List Char) :
    ')' ∉ afterLastParen s := by
  unfold afterLastParen
  by_cases hm : ')' ∈ s
  · rw [if_pos hm]
    intro hc
    rw [List.mem_reverse] at hc
    have := List.mem_takeWhile_imp hc
    simp at this
  · rw [if_neg hm]
    exact hm

theorem afterLastParen_eq_self {s : List Char} (h : ')' ∉ s) :
    afterLastParen s = s := by
  unfold afterLastParen
  rw [if_neg h]

/-! ## Structural invariants of every Name Resolver output -/

theorem extract_props {x y : List Char}
    (h : extract_student_name x = some y) :
    y ≠ [] ∧ (∀ c ∈ y, c = ' ' ∨ (isDelim c = false ∧ c ≠ ')')) ∧
    (∀ c, y.head? = some c → pyIsSpace c = false) ∧
    (∀ c, y.getLast? = some c → pyIsSpace c = false) ∧
    noAdjDelim y := by
  unfold extract_student_name at h
  set nps := takeNameParts (splitRuns (afterLastParen x)) with hnps
  have hq1 : ∀ q ∈ nps, q ≠ [] := fun q hq => (mem_takeNameParts hq).2
  have hq2 : ∀ q ∈ nps, ∀ c ∈ q, isDelim c = false ∧ c ∈ afterLastParen x := by
    intro q hq c hc
    have hmem := (mem_takeNameParts hq).1
    obtain ⟨hin, hnd⟩ := splitRuns_chars q hmem c hc
    exact ⟨hnd, hin⟩
  have hq2' : ∀ q ∈ nps, ∀ c ∈ q, isDelim c = false :=
    fun q hq c hc => (hq2 q hq c hc).1
  have hGmem : ∀ c ∈ joinSpace nps, c = ' ' ∨ (isDelim c = false ∧ c ≠ ')') := by
    intro c hc
    rcases joinSpace_mem hc with hsp | ⟨t, ht, hct⟩
    · exact Or.inl hsp
    · obtain ⟨hnd, hin⟩ := hq2 t ht c hct
      refine Or.inr ⟨hnd, ?_⟩
      intro he
      rw [he] at hin
      exact afterLastParen_no_paren x hin
  have hGhead := joinSpace_head hq1 hq2'
  have hGlast := joinSpace_last hq1 hq2'
  have hGadj := joinSpace_noAdj hq1 hq2'
  have hfn : pyStrip (joinSpace nps) = joinSpace nps :=
    pyStrip_eq_self
      (fun c hc => not_space_of_not_delim (hGhead c hc))
      (fun c hc => not_space_of_not_delim (hGlast c hc))
  unfold finalizeName at h
  rw [hfn] at h
  cases hj : joinSpace nps with
  | nil =>
    rw [hj] at h
    simp [dropLeadNonAlpha] at h
  | cons c0 rest =>
    rw [hj, dropLeadNonAlpha] at h
    by_cases hal : c0.isAlpha = true
    · rw [if_pos hal] at h
      simp only [List.isEmpty_cons, if_neg] at h
      have hy : y = c0 :: rest := by
        simpa using h.symm
      subst hy
      rw [← hj]
      refine ⟨by rw [hj]; simp, hGmem, ?_, ?_, hGadj⟩
      · exact fun c hc => not_space_of_not_delim (hGhead c hc)
      · exact fun c hc => not_space_of_not_delim (hGlast c hc)
    · rw [if_neg hal] at h
      have hy : y = pyStrip rest ∧ (pyStrip rest).isEmpty = false := by
        by_cases he : (pyStrip rest).isEmpty = true
        · rw [if_pos he] at h
          cases h
        · rw [if_neg he] at h
          have h2 := Option.some.inj h
          exact ⟨h2.symm, by simpa using he⟩
      obtain ⟨rfl, hne⟩ := hy
      have htail : noAdjDelim rest := by
        have := noAdjDelim_tail (hj ▸ hGadj)
        simpa using this
      refine ⟨(by intro he2; rw [he2] at hne; cases hne), ?_, ?_, ?_, ?_⟩
      · intro c hc
        have hcr : c ∈ rest := mem_pyStrip hc
        exact hGmem c (hj ▸ List.mem_cons_of_mem c0 hcr)
      · exact fun c hc => head?_pyStrip hc
      · exact fun c hc => getLast?_pyStrip hc
      · exact noAdjDelim_pyStrip htail

theorem noTrail_spec {s : List Char} (h : noTrailDelim s = true) :
    ∀ c, s.getLast? = some c → isDelim c = false := by
  intro c hc
  rw [noTrailDelim, hc] at h
  simpa using h

theorem noLead_spec {s : List Char} (h : noLeadDelim s = true) :
    ∀ c, s.head? = some c → isDelim c = false := by
  intro c hc
  rw [noLeadDelim, hc] at h
  simpa using h

theorem isIdCode_false_of {t : List Char}
    (h : (strIsAlnum t && strHasDigit t) = false) : isIdCode t = false := by
  cases ha : strIsAlnum t
  · simp [isIdCode, ha]
  · cases hd : strHasDigit t
    · simp [isIdCode, ha, hd]
    · rw [ha, hd] at h
      cases h

/-! ## Claim theorems for the Name Resolver -/

/-- C6: on the input `"(2023) John Smith_A1b2_extra.pdf"` the Name Resolver
returns exactly `"John Smith"`: it keeps only the content after the last `)`
and stops accumulating at `A1b2`, the first token that is alphanumeric, not
purely alphabetic, and contains a digit. -/
theorem c6_name_resolver_concrete :
    extract_student_name "(2023) John Smith_A1b2_extra.pdf".toList
      = some "John Smith".toList := by decide

/-- C4 counterexample: the Name Resolver is not idempotent on its own
output.  `".a1 b"` resolves to `"a1 b"` (a non-`None` output, with no
parenthesis and no trailing identifier code), yet resolving `"a1 b"` yields
`None`, not `"a1 b"`: after the leading non-alphabetic character was
dropped, the first token `a1` now matches the identifier-code test and the
accumulator stops immediately. -/
theorem c4_counterexample :
    extract_student_name ".a1 b".toList = some "a1 b".toList ∧
    extract_student_name "a1 b".toList = none ∧
    "a1 b".toList ≠ [] ∧ ')' ∉ "a1 b".toList := by decide

/-- C4 (amended): the Name Resolver is idempotent on every *clean* name: one
that is nonempty, begins with an alphabetic character, contains no `)`,
whose only delimiter characters are single internal spaces (no delimiter at
either end, no two adjacent), and none of whose tokens is an identifier
code.  On such a name the resolver returns the name unchanged.  (The claim's
stronger form — idempotence on every non-`None` output — fails, see the
counterexample.) -/
theorem c4_name_resolver_idempotent_on_clean {y : List Char}
    (h0 : y ≠ [])
    (h1 : y.head?.all Char.isAlpha = true)
    (h2 : ∀ c ∈ y, isDelim c = true → c = ' ')
    (h3 : ')' ∉ y)
    (h4 : noAdjDelim y)
    (h5 : noTrailDelim y = true)
    (h6 : ∀ t ∈ splitRuns y, isIdCode t = false) :
    extract_student_name y = some y := by
  have hleadB : noLeadDelim y = true := by
    cases y with
    | nil => rfl
    | cons c rest =>
      have hca : c.isAlpha = true := by
        simpa [Option.all] using h1
      simp [noLeadDelim, Option.all, isAlpha_not_delim hca]
  have htokens := (splitRuns_tokens h4 h5).2 hleadB h0
  have hnps : takeNameParts (splitRuns y) = splitRuns y :=
    takeNameParts_eq_self htokens h6
  have hjoin : joinSpace (splitRuns y) = y := joinSpace_splitRuns h2 h4 h5
  have hstrip : pyStrip y = y :=
    pyStrip_eq_self
      (fun c hc => not_space_of_not_delim (noLead_spec hleadB c hc))
      (fun c hc => not_space_of_not_delim (noTrail_spec h5 c hc))
  unfold extract_student_name
  rw [afterLastParen_eq_self h3, hnps]
  unfold finalizeName
  rw [hjoin, hstrip]
  cases y with
  | nil => exact absurd rfl h0
  | cons c rest =>
    have hca : c.isAlpha = true := by
      simpa [Option.all] using h1
    rw [dropLeadNonAlpha, if_pos hca]
    simp

/-- C4 witness: a concrete clean name on which the amended idempotence
theorem applies. -/
theorem c4_witness :
    extract_student_name "John Smith".toList = some "John Smith".toList :=
  c4_name_resolver_idempotent_on_clean (by decide) (by decide) (by decide)
    (by decide) (by decide) (by decide) (by decide)

/-- C3 counterexample: `"_"` contains no `)` and no digit-bearing token, is
neither empty nor whitespace-only, yet the Name Resolver returns `None` for
it (every token of `"_"` is empty, so the cleaned string is empty). -/
theorem c3_counterexample :
    extract_student_name "_".toList = none ∧
    "_".toList ≠ [] ∧
    ¬(∀ c ∈ "_".toList, pyIsSpace c = true) ∧
    ')' ∉ "_".toList ∧
    (∀ t ∈ splitRuns "_".toList, (strIsAlnum t && strHasDigit t) = false) := by
  decide

/-- C3 (amended): on an input with no `)` and no alphanumeric digit-bearing
token, the Name Resolver returns the whole cleaned string — the nonempty
tokens joined by single spaces, stripped, with at most one leading
non-alphabetic character dropped — and returns `None` exactly when that
cleaned string is empty.  Empty and whitespace-only inputs always yield
`None` (second conjunct), but so do some delimiter-only or punctuation-only
inputs, such as `"_"`. -/
theorem c3_whole_cleaned_string :
    (∀ x : List Char, ')' ∉ x →
      (∀ t ∈ splitRuns x, (strIsAlnum t && strHasDigit t) = false) →
      extract_student_name x
        = finalizeName ((splitRuns x).filter (fun t => !t.isEmpty))) ∧
    (∀ x : List Char, (∀ c ∈ x, pyIsSpace c = true) →
      extract_student_name x = none) := by
  constructor
  · intro x hpar htok
    unfold extract_student_name
    rw [afterLastParen_eq_self hpar,
      takeNameParts_eq_filter (fun p hp => isIdCode_false_of (htok p hp))]
  · intro x hsp
    have hpar : ')' ∉ x := by
      intro hmem
      have := hsp ')' hmem
      cases this
    have hempty : ∀ t ∈ splitRuns x, t.isEmpty = true := by
      intro t ht
      cases t with
      | nil => rfl
      | cons c t2 =>
        obtain ⟨hin, hnd⟩ := splitRuns_chars _ ht c (by simp)
        rw [space_isDelim (hsp c hin)] at hnd
        cases hnd
    have htok : ∀ t ∈ splitRuns x, (strIsAlnum t && strHasDigit t) = false := by
      intro t ht
      have := hempty t ht
      have ht0 : t = [] := List.isEmpty_iff.mp this
      subst ht0
      rfl
    unfold extract_student_name
    rw [afterLastParen_eq_self hpar,
      takeNameParts_eq_filter (fun p hp => isIdCode_false_of (htok p hp))]
    have hfilter : (splitRuns x).filter (fun t => !t.isEmpty) = [] := by
      rw [List.filter_eq_nil_iff]
      intro t ht
      simp [hempty t ht]
    rw [hfilter]
    rfl

/-- C3 witness: a concrete instance of the first conjunct (whole cleaned
string returned) and of the second (whitespace-only input yields `None`). -/
theorem c3_witness :
    extract_student_name "Jane_van Doe.pdf".toList
      = finalizeName ((splitRuns "Jane_van Doe.pdf".toList).filter
          (fun t => !t.isEmpty)) ∧
    extract_student_name "  ".toList = none :=
  ⟨c3_whole_cleaned_string.1 "Jane_van Doe.pdf".toList (by decide) (by decide),
   c3_whole_cleaned_string.2 "  ".toList (by decide)⟩

/-- C10: every name the Name Resolver returns (rather than `None`) is
nonempty, has no leading or trailing whitespace, contains no underscore,
hyphen or `)`, every whitespace character in it is a plain space, and no two
adjacent characters are both delimiters — so its tokens are separated by
exactly one space each, as `update_sheet` assumes when it splits the name on
a single space. -/
theorem c10_name_output_invariant {x y : List Char}
    (h : extract_student_name x = some y) :
    y ≠ [] ∧ '_' ∉ y ∧ '-' ∉ y ∧ ')' ∉ y ∧
    (∀ c ∈ y, pyIsSpace c = true → c = ' ') ∧
    (∀ c, y.head? = some c → pyIsSpace c = false) ∧
    (∀ c, y.getLast? = some c → pyIsSpace c = false) ∧
    noAdjDelim y := by
  obtain ⟨hne, hmem, hhead, hlast, hadj⟩ := extract_props h
  refine ⟨hne, ?_, ?_, ?_, ?_, hhead, hlast, hadj⟩
  · intro hin
    rcases hmem _ hin with h1 | ⟨h1, _⟩
    · cases h1
    · cases h1
  · intro hin
    rcases hmem _ hin with h1 | ⟨h1, _⟩
    · cases h1
    · cases h1
  · intro hin
    rcases hmem _ hin with h1 | ⟨_, h1⟩
    · cases h1
    · exact h1 rfl
  · intro c hin hsp
    rcases hmem c hin with h1 | ⟨h1, _⟩
    · exact h1
    · rw [space_isDelim hsp] at h1
      cases h1

/-- C10 witness: the invariant holds of the concrete output
`"John Smith"`. -/
theorem c10_witness :
    "John Smith".toList ≠ [] ∧ '_' ∉ "John Smith".toList ∧
    '-' ∉ "John Smith".toList ∧ ')' ∉ "John Smith".toList ∧
    (∀ c ∈ "John Smith".toList, pyIsSpace c = true → c = ' ') ∧
    (∀ c, "John Smith".toList.head? = some c → pyIsSpace c = false) ∧
    (∀ c, "John Smith".toList.getLast? = some c → pyIsSpace c = false) ∧
    noAdjDelim "John Smith".toList :=
  c10_name_output_invariant
    (by decide : extract_student_name "(2023) John Smith_A1b2_extra.pdf".toList
      = some "John Smith".toList)

/-! ## Identifier Extractor lemmas -/

theorem startsWith_append (m rest : List Char) :
    startsWith m (m ++ rest) = true := by
  induction m with
  | nil => rfl
  | cons a as ih => simp [startsWith, ih]

theorem startsWith_exists_rest {m s : List Char}
    (h : startsWith m s = true) : ∃ rest, s = m ++ rest := by
  induction m generalizing s with
  | nil => exact ⟨s, rfl⟩
  | cons a as ih =>
    cases s with
    | nil => cases h
    | cons b bs =>
      rw [startsWith, Bool.and_eq_true, beq_iff_eq] at h
      obtain ⟨rfl, h2⟩ := h
      obtain ⟨rest, rfl⟩ := ih h2
      exact ⟨rest, rfl⟩

theorem takeWhile_append_stop {id b : List Char}
    (hid : ∀ c ∈ id, isIdChar c = true)
    (hb : ∀ c, b.head? = some c → isIdChar c = false) :
    (id ++ b).takeWhile isIdChar = id := by
  induction id with
  | nil =>
    cases b with
    | nil => rfl
    | cons c bs =>
      rw [List.nil_append, List.takeWhile_cons, hb c rfl]
      rfl
  | cons a as ih =>
    rw [List.cons_append, List.takeWhile_cons, if_pos (hid a (by simp))]
    rw [ih (fun c hc => hid c (List.mem_cons_of_mem a hc))]

theorem matchMarkerAt_exact {m id b : List Char} (hid1 : id ≠ [])
    (hid2 : ∀ c ∈ id, isIdChar c = true)
    (hb : ∀ c, b.head? = some c → isIdChar c = false) :
    matchMarkerAt m (m ++ id ++ b) = some id := by
  unfold matchMarkerAt
  rw [List.append_assoc, if_pos (startsWith_append m (id ++ b))]
  rw [List.drop_left, takeWhile_append_stop hid2 hb]
  rw [if_neg (by simpa [List.isEmpty_iff] using hid1)]

theorem matchMarkerAt_some_shape {m s t : List Char}
    (h : matchMarkerAt m s = some t) :
    ∃ c b, isIdChar c = true ∧ s = m ++ c :: b := by
  unfold matchMarkerAt at h
  by_cases hs : startsWith m s = true
  · rw [if_pos hs] at h
    obtain ⟨rest, rfl⟩ := startsWith_exists_rest hs
    rw [List.drop_left] at h
    cases rest with
    | nil => simp at h
    | cons c b =>
      by_cases hc : isIdChar c = true
      · exact ⟨c, b, hc, rfl⟩
      · rw [List.takeWhile_cons, if_neg hc] at h
        simp at h
  · rw [if_neg hs] at h
    cases h

theorem matchMarkerAt_isSome_of_shape (mk : List Char) {c0 : Char}
    {b : List Char} (hc : isIdChar c0 = true) :
    (matchMarkerAt mk (mk ++ c0 :: b)).isSome = true := by
  unfold matchMarkerAt
  rw [if_pos (startsWith_append mk (c0 :: b)), List.drop_left,
    List.takeWhile_cons, if_pos hc]
  simp

theorem matchAt_some_shape {s t : List Char} (h : matchAt s = some t) :
    ∃ m c b, m ∈ markers ∧ isIdChar c = true ∧ s = m ++ c :: b := by
  unfold matchAt at h
  cases h1 : matchMarkerAt fileMarker s with
  | some u =>
    rw [h1] at h
    obtain ⟨c, b, hc, hs⟩ := matchMarkerAt_some_shape h1
    exact ⟨fileMarker, c, b, by simp [markers], hc, hs⟩
  | none =>
    rw [h1] at h
    cases h2 : matchMarkerAt openMarker s with
    | some u =>
      rw [h2] at h
      obtain ⟨c, b, hc, hs⟩ := matchMarkerAt_some_shape h2
      exact ⟨openMarker, c, b, by simp [markers], hc, hs⟩
    | none =>
      rw [h2] at h
      obtain ⟨c, b, hc, hs⟩ := matchMarkerAt_some_shape h
      exact ⟨ucMarker, c, b, by simp [markers], hc, hs⟩

theorem matchAt_isSome_of_any {s : List Char}
    (h1 : (matchMarkerAt fileMarker s).isSome = true ∨
      (matchMarkerAt openMarker s).isSome = true ∨
      (matchMarkerAt ucMarker s).isSome = true) :
    (matchAt s).isSome = true := by
  unfold matchAt
  cases hf : matchMarkerAt fileMarker s with
  | some u => rfl
  | none =>
    cases ho : matchMarkerAt openMarker s with
    | some u => rfl
    | none =>
      cases hu : matchMarkerAt ucMarker s with
      | some u => rfl
      | none =>
        rw [hf, ho, hu] at h1
        simp at h1

theorem matchAt_isSome_of_shape {m : List Char} {c : Char} {b : List Char}
    (hm : m ∈ markers) (hc : isIdChar c = true) :
    (matchAt (m ++ c :: b)).isSome = true := by
  have hmm : m = fileMarker ∨ m = openMarker ∨ m = ucMarker := by
    simpa [markers] using hm
  rcases hmm with rfl | rfl | rfl
  · exact matchAt_isSome_of_any (Or.inl (matchMarkerAt_isSome_of_shape _ hc))
  · exact matchAt_isSome_of_any
      (Or.inr (Or.inl (matchMarkerAt_isSome_of_shape _ hc)))
  · exact matchAt_isSome_of_any
      (Or.inr (Or.inr (matchMarkerAt_isSome_of_shape _ hc)))

theorem markers_ne_nil : ∀ m ∈ markers, m ≠ [] := by decide

theorem matchAt_marker {m id b : List Char} (hm : m ∈ markers)
    (hid1 : id ≠ []) (hid2 : ∀ c ∈ id, isIdChar c = true)
    (hb : ∀ c, b.head? = some c → isIdChar c = false) :
    matchAt (m ++ id ++ b) = some id := by
  have hmm : m = fileMarker ∨ m = openMarker ∨ m = ucMarker := by
    simpa [markers] using hm
  rcases hmm with rfl | rfl | rfl
  · unfold matchAt
    rw [matchMarkerAt_exact hid1 hid2 hb]
  · have h1 : matchMarkerAt fileMarker (openMarker ++ id ++ b) = none := rfl
    unfold matchAt
    rw [h1, matchMarkerAt_exact hid1 hid2 hb]
  · have h1 : matchMarkerAt fileMarker (ucMarker ++ id ++ b) = none := rfl
    have h2 : matchMarkerAt openMarker (ucMarker ++ id ++ b) = none := rfl
    unfold matchAt
    rw [h1, h2, matchMarkerAt_exact hid1 hid2 hb]

theorem extract_some_of_matchAt {s t : List Char} (hne : s ≠ [])
    (h : matchAt s = some t) : extract_file_id s = some t := by
  cases s with
  | nil => exact absurd rfl hne
  | cons c cs =>
    unfold extract_file_id
    rw [h]

theorem extract_cons_none {c : Char} {cs : List Char}
    (h : matchAt (c :: cs) = none) :
    extract_file_id (c :: cs) = extract_file_id cs := by
  conv_lhs => rw [extract_file_id]
  rw [h]

theorem matchAt_none_iff {s : List Char} :
    matchAt s = none ↔
      ¬∃ m c b, m ∈ markers ∧ isIdChar c = true ∧ s = m ++ c :: b := by
  constructor
  · rintro hnone ⟨m, c, b, hm, hc, rfl⟩
    have hS : (matchAt (m ++ c :: b)).isSome = true :=
      matchAt_isSome_of_shape hm hc
    rw [hnone] at hS
    cases hS
  · intro hns
    cases hv : matchAt s with
    | none => rfl
    | some t =>
      obtain ⟨m, c, b, hm, hc, hs⟩ := matchAt_some_shape hv
      exact absurd ⟨m, c, b, hm, hc, hs⟩ hns

theorem containsShape_nil : ¬containsShape [] := by
  rintro ⟨a, m, c, b, hm, hc, he⟩
  have h1 := List.append_eq_nil.mp he.symm
  cases h1.2

theorem containsShape_cons_iff {c : Char} {cs : List Char} :
    containsShape (c :: cs) ↔
      (∃ m c' b, m ∈ markers ∧ isIdChar c' = true ∧ c :: cs = m ++ c' :: b) ∨
      containsShape cs := by
  constructor
  · rintro ⟨a, m, c', b, hm, hc, he⟩
    cases a with
    | nil => exact Or.inl ⟨m, c', b, hm, hc, by simpa using he⟩
    | cons x a' =>
      have he2 : c :: cs = x :: (a' ++ m ++ c' :: b) := by
        simpa [List.cons_append] using he
      rw [List.cons.injEq] at he2
      exact Or.inr ⟨a', m, c', b, hm, hc, he2.2⟩
  · rintro (⟨m, c', b, hm, hc, he⟩ | ⟨a, m, c', b, hm, hc, he⟩)
    · exact ⟨[], m, c', b, hm, hc, by simpa using he⟩
    · refine ⟨c :: a, m, c', b, hm, hc, ?_⟩
      rw [he]
      simp [List.cons_append]

theorem extract_none_iff (s : List Char) :
    extract_file_id s = none ↔ ¬containsShape s := by
  induction s with
  | nil => exact iff_of_true rfl containsShape_nil
  | cons c cs ih =>
    cases hv : matchAt (c :: cs) with
    | some t =>
      have h1 : extract_file_id (c :: cs) = some t :=
        extract_some_of_matchAt (by simp) hv
      have h2 : containsShape (c :: cs) := by
        obtain ⟨m, c', b, hm, hc, hs⟩ := matchAt_some_shape hv
        exact ⟨[], m, c', b, hm, hc, by simpa using hs⟩
      rw [h1]
      exact iff_of_false (by simp) (by simp [h2])
    | none =>
      rw [extract_cons_none hv, ih, containsShape_cons_iff, not_or]
      have hns := matchAt_none_iff.mp hv
      exact ⟨fun h => ⟨hns, h⟩, fun h => h.2⟩

theorem extract_exact {m id b : List Char} (hm : m ∈ markers) (hid1 : id ≠ [])
    (hid2 : ∀ c ∈ id, isIdChar c = true)
    (hb : ∀ c, b.head? = some c → isIdChar c = false) :
    ∀ a : List Char,
    (∀ i, i < a.length → matchAt ((a ++ m ++ id ++ b).drop i) = none) →
    extract_file_id (a ++ m ++ id ++ b) = some id := by
  intro a
  induction a with
  | nil =>
    intro _
    rw [List.nil_append]
    refine extract_some_of_matchAt ?_ (matchAt_marker hm hid1 hid2 hb)
    intro he
    have h1 := List.append_eq_nil.mp (List.append_eq_nil.mp he).1
    exact markers_ne_nil m hm h1.1
  | cons x a' ih =>
    intro hfirst
    have hcons : (x :: a') ++ m ++ id ++ b = x :: (a' ++ m ++ id ++ b) := by
      simp [List.cons_append]
    rw [hcons]
    have h0 : matchAt (x :: (a' ++ m ++ id ++ b)) = none := by
      have := hfirst 0 (by simp)
      rw [hcons] at this
      simpa using this
    rw [extract_cons_none h0]
    refine ih ?_
    intro i hi
    have := hfirst (i + 1) (by simpa using Nat.succ_lt_succ hi)
    rw [hcons] at this
    simpa using this

/-! ## Claim theorem for the Identifier Extractor -/

/-- C5: for every link containing one of the three recognized shapes — a
marker `file/d/`, `open?id=` or `uc?id=` followed by a maximal nonempty run
`id` of characters from `[a-zA-Z0-9-_]` — and matching at no earlier
position, the Identifier Extractor returns exactly `id` (first conjunct:
unanchored, first match anywhere wins, no normalization of the surrounding
text); and it returns `None` exactly for the strings in which no marker
occurrence is followed by an identifier character (second conjunct). -/
theorem c5_identifier_extractor :
    (∀ a m id b : List Char, m ∈ markers → id ≠ [] →
      (∀ c ∈ id, isIdChar c = true) →
      (∀ c, b.head? = some c → isIdChar c = false) →
      (∀ i, i < a.length → matchAt ((a ++ m ++ id ++ b).drop i) = none) →
      extract_file_id (a ++ m ++ id ++ b) = some id) ∧
    (∀ s : List Char, extract_file_id s = none ↔ ¬containsShape s) :=
  ⟨fun a _ _ _ hm h1 h2 h3 h4 => extract_exact hm h1 h2 h3 a h4,
   extract_none_iff⟩

/-- C5 witness: on `"x open?id=Abc-1&z"` the extractor returns exactly
`"Abc-1"`. -/
theorem c5_witness :
    extract_file_id ("x ".toList ++ openMarker ++ "Abc-1".toList ++ "&z".toList)
      = some "Abc-1".toList :=
  c5_identifier_extractor.1 "x ".toList openMarker "Abc-1".toList "&z".toList
    (by decide) (by decide) (by decide) (by decide) (by decide)

/-! ## Ingestion pipeline lemmas -/

/-- When the catalog map is empty, a record can only be produced through the
download-and-upload path, so its file name appears in an upload event. -/
theorem processLink_ok_upload {env : DriveEnv}
    {gmap : List Char → Option GeminiFile} {fvar : Option (Option (List Char))}
    {link : List Char} {rec : UploadedPdf} {fvar' : Option (Option (List Char))}
    {evs : List Ev} (hg : ∀ n, gmap n = none)
    (h : processLink env gmap fvar link = (.ok rec, fvar', evs)) :
    Ev.upload rec.file_name ∈ evs := by
  unfold processLink at h
  cases hfid : extract_file_id link with
  | none =>
    rw [hfid] at h
    simp at h
  | some fid =>
    rw [hfid] at h
    simp only at h
    cases hn : env.getName fid with
    | error e =>
      rw [hn] at h
      simp only at h
      by_cases hfv : fvar.isSome = true
      · rw [if_pos hfv] at h
        simp at h
      · rw [if_neg hfv] at h
        simp at h
    | ok nameOpt =>
      rw [hn] at h
      simp only at h
      cases nameOpt with
      | none => simp at h
      | some name =>
        simp only at h
        by_cases hne : name.isEmpty = true
        · rw [if_pos hne] at h
          simp at h
        · rw [if_neg hne] at h
          rw [hg name] at h
          simp only at h
          cases hd : env.download fid with
          | error e =>
            rw [hd] at h
            simp at h
          | ok u =>
            rw [hd] at h
            simp only at h
            cases hu : env.upload fid name with
            | error e =>
              rw [hu] at h
              simp at h
            | ok gf =>
              rw [hu] at h
              simp only [Prod.mk.injEq, ItemOut.ok.injEq] at h
              obtain ⟨hrec, _, hevs⟩ := h
              rw [← hevs, ← hrec]
              simp

/-- Batch version: every record produced under an empty catalog map has an
upload event for its file name in the trace. -/
theorem runIngest_ok_upload {env : DriveEnv}
    {gmap : List Char → Option GeminiFile} (hg : ∀ n, gmap n = none) :
    ∀ (links : List (List Char)) (fvar : Option (Option (List Char)))
      (recs : List UploadedPdf),
      (runIngest env gmap links fvar).1 = .ok recs →
      ∀ r ∈ recs, Ev.upload r.file_name ∈ (runIngest env gmap links fvar).2 := by
  intro links
  induction links with
  | nil =>
    intro fvar recs h r hr
    simp only [runIngest] at h
    cases h
    cases hr
  | cons l ls ih =>
    intro fvar recs h r hr
    rcases hproc : processLink env gmap fvar l with ⟨out, fvar', evs⟩
    rw [runIngest, hproc] at h
    rw [runIngest, hproc]
    cases out with
    | fatal =>
      simp at h
    | skip =>
      simp only at h ⊢
      exact List.mem_append_right evs (ih fvar' recs h r hr)
    | ok rec =>
      simp only at h ⊢
      cases hrest : (runIngest env gmap ls fvar').1 with
      | error e =>
        rw [hrest] at h
        cases h
      | ok rs =>
        rw [hrest] at h
        simp only [Except.map, Except.ok.injEq] at h
        subst h
        rcases List.mem_cons.mp hr with rfl | hr2
        · exact List.mem_append_left _ (processLink_ok_upload hg hproc)
        · exact List.mem_append_right evs (ih fvar' rs (by rw [hrest]) r hr2)

/-! ## Claim theorems for the ingestion pipeline -/

/-- C1 (evaluating the code at the failing input): the spec says every
per-item error is caught, logged, and only that item skipped, the caller
always receiving a list.  But when the very first reference's metadata fetch
raises, the `except` handler's log line `file_name or link` reads the local
`file_name` before any assignment, raising `UnboundLocalError`, which
nothing catches: the whole call aborts (`Except.error`) and the caller
receives a raised error instead of a list. -/
theorem c1_unbound_local_aborts :
    process_files_from_list (.ok []) allFailEnv ["file/d/abc".toList]
      = (.error (), []) := rfl

/-- C2 counterexample: a listing that yields one item (`f.pdf`) and then
fails does *not* leave the catalog index empty: a subsequent reference whose
display name is `f.pdf` is treated as a cache hit — the record reuses the
yielded handle and the trace has no upload (the environment's upload and
download calls even fail, so the upload path cannot have produced it). -/
theorem c2_counterexample :
    process_files_from_list
      (.error ([⟨"f.pdf".toList, "u1".toList⟩], .httpError))
      ⟨fun _ => .ok (some "f.pdf".toList),
       fun _ => .error .otherError, fun _ _ => .error .otherError⟩
      ["file/d/xyz".toList]
      = (.ok [⟨"xyz".toList, "f.pdf".toList, "f.pdf".toList,
              ⟨"f.pdf".toList, "u1".toList⟩⟩], []) := rfl

/-- C2 (amended): a listing failure never aborts the run; the pipeline
proceeds with the index of the items yielded before the failure, behaving
exactly as if those items were the whole catalog (first conjunct).  Only
when the failed enumeration yielded nothing is the index empty, and then no
item is a cache hit: every emitted record is witnessed by an upload event
bearing its file name (second conjunct). -/
theorem c2_degraded_index (env : DriveEnv) (fs : List GeminiFile) (e : PyExc)
    (links : List (List Char)) :
    process_files_from_list (.error (fs, e)) env links
      = process_files_from_list (.ok fs) env links ∧
    (∀ recs,
      (process_files_from_list (.error (([] : List GeminiFile), e)) env links).1
        = .ok recs →
      ∀ r ∈ recs, Ev.upload r.file_name ∈
        (process_files_from_list (.error (([] : List GeminiFile), e)) env links).2) :=
  ⟨rfl, fun recs h r hr =>
    runIngest_ok_upload (fun _ => rfl) links none recs h r hr⟩

/-- C2 witness: with a listing that failed before yielding anything, the one
produced record's upload event is in the trace. -/
theorem c2_witness :
    ∀ r ∈ [UploadedPdf.mk "abc".toList "n.pdf".toList "n.pdf".toList
            ⟨"n.pdf".toList, "u2".toList⟩],
      Ev.upload r.file_name ∈
        (process_files_from_list (.error ([], .httpError))
          ⟨fun _ => .ok (some "n.pdf".toList), fun _ => .ok (),
           fun _ name => .ok ⟨name, "u2".toList⟩⟩
          ["file/d/abc".toList]).2 :=
  (c2_degraded_index
    ⟨fun _ => .ok (some "n.pdf".toList), fun _ => .ok (),
     fun _ name => .ok ⟨name, "u2".toList⟩⟩
    [] .httpError ["file/d/abc".toList]).2
    [⟨"abc".toList, "n.pdf".toList, "n.pdf".toList, ⟨"n.pdf".toList, "u2".toList⟩⟩]
    rfl

/-- C7: a reference whose fetched display name is already a key of the
catalog index produces exactly one record reusing the cached handle, with no
download and no upload call — the item contributes no events at all, and the
rest of the run is unchanged. -/
theorem c7_cache_hit (listing : ListOutcome) (env : DriveEnv)
    (fvar : Option (Option (List Char))) (link : List Char)
    (ls : List (List Char)) (fid name : List Char) (gf : GeminiFile)
    (h1 : extract_file_id link = some fid)
    (h2 : env.getName fid = .ok (some name))
    (h3 : name.isEmpty = false)
    (h4 : buildGeminiFilesMap listing name = some gf) :
    processLink env (buildGeminiFilesMap listing) fvar link
      = (.ok ⟨fid, name, resolveStudent name, gf⟩, some (some name), []) ∧
    runIngest env (buildGeminiFilesMap listing) (link :: ls) fvar
      = ((runIngest env (buildGeminiFilesMap listing) ls (some (some name))).1.map
          (fun rs => ⟨fid, name, resolveStudent name, gf⟩ :: rs),
         (runIngest env (buildGeminiFilesMap listing) ls (some (some name))).2) := by
  have hpl : processLink env (buildGeminiFilesMap listing) fvar link
      = (.ok ⟨fid, name, resolveStudent name, gf⟩, some (some name), []) := by
    simp [processLink, h1, h2, h3, h4]
  refine ⟨hpl, ?_⟩
  rw [runIngest, hpl]
  rfl

/-- C7 witness: a concrete cache hit — the record reuses the cached handle
and the item emits no events. -/
theorem c7_witness :
    processLink
      ⟨fun _ => .ok (some "n.pdf".toList), fun _ => .error .httpError,
       fun _ _ => .error .httpError⟩
      (buildGeminiFilesMap (.ok [⟨"n.pdf".toList, "u".toList⟩])) none
      "file/d/abc".toList
      = (.ok ⟨"abc".toList, "n.pdf".toList, "n.pdf".toList,
             ⟨"n.pdf".toList, "u".toList⟩⟩,
         some (some "n.pdf".toList), []) ∧
    runIngest
      ⟨fun _ => .ok (some "n.pdf".toList), fun _ => .error .httpError,
       fun _ _ => .error .httpError⟩
      (buildGeminiFilesMap (.ok [⟨"n.pdf".toList, "u".toList⟩]))
      ["file/d/abc".toList] none
      = ((runIngest
            ⟨fun _ => .ok (some "n.pdf".toList), fun _ => .error .httpError,
             fun _ _ => .error .httpError⟩
            (buildGeminiFilesMap (.ok [⟨"n.pdf".toList, "u".toList⟩]))
            [] (some (some "n.pdf".toList))).1.map
          (fun rs => ⟨"abc".toList, "n.pdf".toList, "n.pdf".toList,
                      ⟨"n.pdf".toList, "u".toList⟩⟩ :: rs),
         (runIngest
            ⟨fun _ => .ok (some "n.pdf".toList), fun _ => .error .httpError,
             fun _ _ => .error .httpError⟩
            (buildGeminiFilesMap (.ok [⟨"n.pdf".toList, "u".toList⟩]))
            [] (some (some "n.pdf".toList))).2) :=
  c7_cache_hit (.ok [⟨"n.pdf".toList, "u".toList⟩])
    ⟨fun _ => .ok (some "n.pdf".toList), fun _ => .error .httpError,
     fun _ _ => .error .httpError⟩
    none "file/d/abc".toList [] "abc".toList "n.pdf".toList
    ⟨"n.pdf".toList, "u".toList⟩ rfl rfl rfl rfl

/-! ## Claim theorems for the Batch Analyzer -/

/-- C8: when the analysis service raises a rate-limit / quota / service-call
error on one record, the Batch Analyzer produces no `AnalysisResult` for it,
prepends only a backoff sleep to the trace, and processes the remaining
records exactly as it would have otherwise — the batch is never aborted; the
backoff delay (5s) is strictly longer than the per-success delay (1s). -/
theorem c8_rate_limit_backoff (gen : List Char → List Char → GenOut)
    (prompt : List Char) (up : UploadedPdf) (rest : List UploadedPdf)
    (h : gen prompt up.gemini_file.uri = .apiError) :
    analyze_pdfs gen prompt (up :: rest)
      = ((analyze_pdfs gen prompt rest).1,
         Ev.sleep backoffDelaySecs :: (analyze_pdfs gen prompt rest).2) ∧
    successDelaySecs < backoffDelaySecs := by
  constructor
  · conv_lhs => rw [analyze_pdfs]
    rw [h]
  · decide

/-- C8 witness: a concrete batch whose first item hits the rate limit and
whose second item still completes. -/
theorem c8_witness :
    analyze_pdfs
      (fun _ uri => if uri = "u1".toList then .apiError
                    else .ok (some " r ".toList))
      "p".toList
      [⟨"i1".toList, "f1".toList, "s1".toList, ⟨"f1".toList, "u1".toList⟩⟩,
       ⟨"i2".toList, "f2".toList, "s2".toList, ⟨"f2".toList, "u2".toList⟩⟩]
      = ((analyze_pdfs
            (fun _ uri => if uri = "u1".toList then .apiError
                          else .ok (some " r ".toList))
            "p".toList
            [⟨"i2".toList, "f2".toList, "s2".toList,
              ⟨"f2".toList, "u2".toList⟩⟩]).1,
         Ev.sleep backoffDelaySecs ::
           (analyze_pdfs
              (fun _ uri => if uri = "u1".toList then .apiError
                            else .ok (some " r ".toList))
              "p".toList
              [⟨"i2".toList, "f2".toList, "s2".toList,
                ⟨"f2".toList, "u2".toList⟩⟩]).2) ∧
    successDelaySecs < backoffDelaySecs :=
  c8_rate_limit_backoff
    (fun _ uri => if uri = "u1".toList then .apiError
                  else .ok (some " r ".toList))
    "p".toList
    ⟨"i1".toList, "f1".toList, "s1".toList, ⟨"f1".toList, "u1".toList⟩⟩
    [⟨"i2".toList, "f2".toList, "s2".toList, ⟨"f2".toList, "u2".toList⟩⟩]
    rfl

/-- C9: on a successful analysis call the stored text is the returned text
with surrounding whitespace stripped, and whenever the service returns empty
text (Python `None` or `""`) the stored analysis is the fixed sentinel
`"No analysis available."` — which is itself nonempty — rather than an empty
string. -/
theorem c9_trim_or_sentinel (gen : List Char → List Char → GenOut)
    (prompt : List Char) (up : UploadedPdf) (rest : List UploadedPdf) :
    (∀ s : List Char, gen prompt up.gemini_file.uri = .ok (some s) →
      s.isEmpty = false →
      (analyze_pdfs gen prompt (up :: rest)).1
        = ⟨up.file_name, up.file_id, up.student_name, pyStrip s⟩
            :: (analyze_pdfs gen prompt rest).1) ∧
    (gen prompt up.gemini_file.uri = .ok none →
      (analyze_pdfs gen prompt (up :: rest)).1
        = ⟨up.file_name, up.file_id, up.student_name, noAnalysisText⟩
            :: (analyze_pdfs gen prompt rest).1) ∧
    (gen prompt up.gemini_file.uri = .ok (some []) →
      (analyze_pdfs gen prompt (up :: rest)).1
        = ⟨up.file_name, up.file_id, up.student_name, noAnalysisText⟩
            :: (analyze_pdfs gen prompt rest).1) ∧
    noAnalysisText ≠ [] := by
  refine ⟨?_, ?_, ?_, by decide⟩
  · intro s hgen hs
    conv_lhs => rw [analyze_pdfs]
    rw [hgen]
    simp [analysisTextOf, hs]
  · intro hgen
    conv_lhs => rw [analyze_pdfs]
    rw [hgen]
    simp [analysisTextOf]
  · intro hgen
    conv_lhs => rw [analyze_pdfs]
    rw [hgen]
    simp [analysisTextOf]

/-- C9 witness: whitespace is stripped on a successful call (instantiating
the first conjunct at `" r "`). -/
theorem c9_witness :
    (analyze_pdfs (fun _ _ => .ok (some " r ".toList)) "p".toList
      [⟨"i1".toList, "f1".toList, "s1".toList, ⟨"f1".toList, "u1".toList⟩⟩]).1
      = ⟨"f1".toList, "i1".toList, "s1".toList, pyStrip " r ".toList⟩
          :: (analyze_pdfs (fun _ _ => .ok (some " r ".toList)) "p".toList []).1 :=
  (c9_trim_or_sentinel (fun _ _ => .ok (some " r ".toList)) "p".toList
    ⟨"i1".toList, "f1".toList, "s1".toList, ⟨"f1".toList, "u1".toList⟩⟩ []).1
    " r ".toList rfl rfl

end BatchPdf
